import Mathlib

/-!
Shallow embedding of the entwine chunked point-cloud index core
(`src/entwine/tree/branches/chunk.cpp`, `src/entwine/reader/chunk-reader.cpp`,
`src/entwine/reader/query.cpp`), together with theorems settling the frozen
claims about its specification.

Machine conventions of the embedded C++: a 64-bit little-endian target, so
`sizeof(std::size_t) = sizeof(uint64_t) = 8`, `std::memcpy` of a `uint64_t`
produces 8 bytes least-significant first, and `std::size_t` arithmetic is
modulo `2^64`.  Bytes are modelled as natural numbers below 256, byte vectors
(`std::vector<char>`) as `List Nat`.
-/

deriving instance DecidableEq for Except

namespace Entwine

/-! ## Bytes and little-endian 64-bit values -/

/-- Little-endian byte serialization: `toLEBytes k n` is the `k` bytes of `n`
least-significant first, as `std::memcpy` from an integer produces on a
little-endian machine. -/
def toLEBytes : Nat → Nat → List Nat
  | 0, _ => []
  | k + 1, n => n % 256 :: toLEBytes k (n / 256)

/-- The 8 bytes that `std::memcpy(pos, &v, sizeof(uint64_t))` writes for a
64-bit value `v` (the value taken modulo `2^64`). -/
def toLE64 (n : Nat) : List Nat := toLEBytes 8 n

/-- Reading a little-endian byte list back as a natural number, as
`std::memcpy(&v, pos, ...)` followed by use of `v` does. -/
def fromLEBytes : List Nat → Nat
  | [] => 0
  | b :: rest => b + 256 * fromLEBytes rest

/-- Reading a `uint64_t` from the first 8 bytes of a byte list. -/
def fromLE64 (bs : List Nat) : Nat := fromLEBytes (bs.take 8)

theorem toLEBytes_length (k n : Nat) : (toLEBytes k n).length = k := by
  induction k generalizing n with
  | zero => rfl
  | succ k ih => simp [toLEBytes, ih]

theorem toLE64_length (n : Nat) : (toLE64 n).length = 8 := toLEBytes_length 8 n

theorem fromLEBytes_toLEBytes (k n : Nat) :
    fromLEBytes (toLEBytes k n) = n % 256 ^ k := by
  induction k generalizing n with
  | zero => simp [toLEBytes, fromLEBytes, Nat.mod_one]
  | succ k ih =>
      have hsplit : n % (256 * 256 ^ k) = n % 256 + 256 * (n / 256 % 256 ^ k) :=
        Nat.mod_mul
      calc fromLEBytes (toLEBytes (k + 1) n)
          = n % 256 + 256 * fromLEBytes (toLEBytes k (n / 256)) := rfl
        _ = n % 256 + 256 * (n / 256 % 256 ^ k) := by rw [ih]
        _ = n % (256 * 256 ^ k) := hsplit.symm
        _ = n % 256 ^ (k + 1) := by rw [pow_succ, mul_comm (256 ^ k) 256]

theorem fromLE64_toLE64 (n : Nat) (h : n < 2 ^ 64) : fromLE64 (toLE64 n) = n := by
  have hlen : (toLEBytes 8 n).length = 8 := toLEBytes_length 8 n
  have : fromLE64 (toLE64 n) = fromLEBytes (toLEBytes 8 n) := by
    unfold fromLE64 toLE64
    rw [List.take_of_length_le (by rw [hlen])]
  rw [this, fromLEBytes_toLEBytes]
  have h256 : (256 : Nat) ^ 8 = 2 ^ 64 := by norm_num
  rw [h256]
  exact Nat.mod_eq_of_lt h

/-! ## Schema

`Schema` (from `entwine/types/schema.hpp`, consumed by the core) is an ordered
list of dimensions; `pointSize` is the sum of the dimension sizes. -/

structure DimInfo where
  name : String
  size : Nat
deriving DecidableEq

structure Schema where
  dims : List DimInfo
deriving DecidableEq

def Schema.pointSize (s : Schema) : Nat := (s.dims.map DimInfo.size).sum

/-- `makeSparse` (chunk.cpp): prepends the 8-byte `EntryId` dimension to the
native schema, yielding the "celled" schema used for Sparse serialization. -/
def makeSparse (s : Schema) : Schema := ⟨⟨"EntryId", 8⟩ :: s.dims⟩

theorem makeSparse_pointSize (s : Schema) :
    (makeSparse s).pointSize = 8 + s.pointSize := by
  simp [makeSparse, Schema.pointSize]

/-- `getThreshold` (chunk.cpp).  The C++ body is
`return pointSize / (pointSize + sizeof(std::size_t));` where both operands
are `std::size_t`, so the division is integer division (performed before the
implicit conversion of the result to the `double` return value), with
`sizeof(std::size_t) = 8`. -/
def getThreshold (schema : Schema) : Nat :=
  schema.pointSize / (schema.pointSize + 8)

/-! ## Compression codec

Modelled from the spec: `Compression::compress` / `Compression::decompress`
(`entwine/compression/util.hpp`) are not part of this repository's core
sources; the spec treats the codec as an opaque byte-vector codec whose only
required property is that decompressing a compressed buffer with the known
decompressed size yields round-trip-equal bytes.  The identity codec realizes
exactly that contract and is used as the model. -/

def Compression.compress (_schema : Schema) (data : List Nat) : List Nat := data

/-- Modelled from the spec: see `Compression.compress`.  The `_expectedSize`
argument mirrors the known-decompressed-length parameter of the C++ call. -/
def Compression.decompress (_schema : Schema) (_expectedSize : Nat)
    (data : List Nat) : List Nat := data

/-! ## Chunk type markers

Modelled from the spec: the `ChunkType` enumeration lives in the (absent)
header `entwine/tree/branches/chunk.hpp`; the spec fixes the stable marker
byte values `Sparse = 0x00`, `Contiguous = 0x01`. -/

def sparseMarker : Nat := 0

def contiguousMarker : Nat := 1

inductive ChunkType where
  | sparse
  | contiguous
deriving DecidableEq

/-! ## SparseChunkData -/

/-- `SparseChunkData` (chunk.cpp): `m_entries` is a `std::map` from raw index
to a `SparseEntry` owning a per-point byte buffer of size
`schema.pointSize()`.  The map is modelled as its in-order association list
(strict ascending keys being the `std::map` invariant, carried as a
hypothesis where a theorem needs it); only the owned bytes of each entry are
kept, the `Entry` bookkeeping (atomic `Point*`, mutex) having no bearing on
serialization. -/
structure SparseChunkData where
  schema : Schema
  id : Nat
  maxPoints : Nat
  entries : List (Nat × List Nat)
deriving DecidableEq

/-- `std::size_t` subtraction of 1, as evaluated in `end - 1` inside
`SparseChunkData::squash`: wraps modulo `2^64`. -/
def usub1 (n : Nat) : Nat := (n + (2 ^ 64 - 1)) % 2 ^ 64

/-- `SparseChunkData::squash` (chunk.cpp): iterates the map from
`lower_bound(begin)` to `upper_bound(end - 1)` — on the in-order list of a
`std::map` these are exactly the entries whose key `k` satisfies
`begin ≤ k ∧ k ≤ end - 1` — and for each appends the 8-byte little-endian id
followed by the `nativePointSize` bytes of the entry's buffer. -/
def SparseChunkData.squash (c : SparseChunkData) (b e : Nat) : List Nat :=
  ((c.entries.filter (fun p => b ≤ p.1 && p.1 ≤ usub1 e)).map
    (fun p => toLE64 p.1 ++ p.2)).flatten

/-- `SparseChunkData::pushNumPoints` (chunk.cpp): appends the 8 bytes of
`numPoints` as a `uint64_t`. -/
def SparseChunkData.pushNumPoints (data : List Nat) (numPoints : Nat) : List Nat :=
  data ++ toLE64 numPoints

/-- `SparseChunkData::write` (chunk.cpp): squashes the `[begin, end)` range
under the celled schema, compresses it, appends the 8-byte count
`m_entries.size()` and the `Sparse` marker, and puts the blob under the name
`std::to_string(begin)`.  The result models the single `source.put` call as
the pair (name, stored bytes). -/
def SparseChunkData.write (c : SparseChunkData) (b e : Nat) : String × List Nat :=
  let sparse := makeSparse c.schema
  let data := c.squash b e
  let compressed := Compression.compress sparse data
  (toString b, SparseChunkData.pushNumPoints compressed c.entries.length ++ [sparseMarker])

/-! ## Claims C1 and C2 -/

/-- Concrete sparse chunk used to exercise `SparseChunkData::write`:
native point size 1, two populated indices 0 and 5. -/
def c1Example : SparseChunkData := ⟨⟨[⟨"X", 1⟩]⟩, 0, 8, [(0, [7]), (5, [9])]⟩

/-- C1, counterexample.  For the chunk with entries at raw indices 0 and 5 and
the range `[0, 3)`, the blob written by `write(source, 0, 3)` ends in the
`Sparse` marker, but the 8 bytes preceding it hold `m_entries.size() = 2`,
not the number of records serialized into the blob (1, only index 0 lies in
`[0, 3)`): `pushNumPoints` receives the whole map's size regardless of the
range. -/
theorem sparse_write_count_counterexample :
    ((c1Example.write 0 3).2.getLast? = some sparseMarker) ∧
    ¬ (fromLE64 (((c1Example.write 0 3).2.dropLast).drop
          (((c1Example.write 0 3).2.dropLast).length - 8))
        = (c1Example.entries.filter (fun p => 0 ≤ p.1 && p.1 < 3)).length) := by
  decide

/-- C1 (amended).  `write(source, begin, end)` stores under the name
`str(begin)` a blob whose last byte is the `Sparse` marker and whose
preceding 8 bytes, read as a little-endian `uint64`, equal the total number
of entries of the chunk's map (`m_entries.size()`); this coincides with the
number of point records serialized into the blob whenever every key of the
map lies in `[begin, end)` — in particular for the full-chunk writes the
builder performs. -/
theorem sparse_write_numPoints (c : SparseChunkData) (b e : Nat)
    (hcount : c.entries.length < 2 ^ 64) :
    ((c.write b e).1 = toString b) ∧
    ((c.write b e).2.getLast? = some sparseMarker) ∧
    (fromLE64 (((c.write b e).2.dropLast).drop
        (((c.write b e).2.dropLast).length - 8)) = c.entries.length) ∧
    (1 ≤ e → e ≤ 2 ^ 64 → (∀ p ∈ c.entries, b ≤ p.1 ∧ p.1 < e) →
      c.entries.length
        = (c.entries.filter (fun p => b ≤ p.1 && p.1 < e)).length) := by
  have hblob : (c.write b e).2
      = (c.squash b e ++ toLE64 c.entries.length) ++ [sparseMarker] := by
    simp [SparseChunkData.write, SparseChunkData.pushNumPoints,
      Compression.compress, List.append_assoc]
  refine ⟨rfl, ?_, ?_, ?_⟩
  · rw [hblob]; simp
  · rw [hblob]
    rw [List.dropLast_concat]
    have hlen : (c.squash b e ++ toLE64 c.entries.length).length
        = (c.squash b e).length + 8 := by
      simp [toLE64_length]
    rw [hlen]
    have hdrop : (c.squash b e ++ toLE64 c.entries.length).drop
        ((c.squash b e).length + 8 - 8) = toLE64 c.entries.length := by
      have : (c.squash b e).length + 8 - 8 = (c.squash b e).length := by omega
      rw [this, List.drop_left]
    rw [hdrop, fromLE64_toLE64 _ hcount]
  · intro h1 h2 hall
    have hfilter : c.entries.filter (fun p => b ≤ p.1 && p.1 < e) = c.entries := by
      apply List.filter_eq_self.mpr
      intro p hp
      have := hall p hp
      simp only [Bool.and_eq_true, decide_eq_true_eq]
      omega
    rw [hfilter]

/-- C1 witness: the amended statement at the concrete chunk `c1Example` over
its full range `[0, 8)`. -/
theorem sparse_write_numPoints_witness :
    (c1Example.entries.length < 2 ^ 64) ∧
    (fromLE64 (((c1Example.write 0 8).2.dropLast).drop
        (((c1Example.write 0 8).2.dropLast).length - 8))
      = c1Example.entries.length) ∧
    c1Example.entries.length
      = (c1Example.entries.filter (fun p => 0 ≤ p.1 && p.1 < 8)).length :=
  ⟨by decide,
   (sparse_write_numPoints c1Example 0 8 (by decide)).2.2.1,
   (sparse_write_numPoints c1Example 0 8 (by decide)).2.2.2 (by decide) (by decide)
     (by decide)⟩

/-- Schema with `pointSize() = 24` (X, Y, Z as f64), the usual minimal
entwine schema. -/
def c2Schema : Schema := ⟨[⟨"X", 8⟩, ⟨"Y", 8⟩, ⟨"Z", 8⟩]⟩

/-- C2.  The claim (and the spec's intent: a density threshold strictly
between 0 and 1 against which `numPoints / maxPoints` is compared) says
`getThreshold` returns the exact rational `pointSize / (pointSize + 8)`.
The code divides the two `std::size_t` operands in integer arithmetic before
converting to `double`, so it returns 0 for every schema: for the 24-byte
schema the claimed value is `24/32 = 3/4`, the code's value is 0. -/
theorem getThreshold_integer_division :
    (∀ s : Schema, getThreshold s = 0) ∧
    c2Schema.pointSize = 24 ∧
    getThreshold c2Schema = 0 ∧
    ¬ (((getThreshold c2Schema : Nat) : ℚ) = (24 : ℚ) / (24 + 8)) := by
  refine ⟨fun s => Nat.div_eq_of_lt (by omega), by decide, by decide, ?_⟩
  have h : getThreshold c2Schema = 0 := by decide
  rw [h]
  norm_num

/-! ## ChunkDataFactory and deserialization -/

/-- `getChunkType` (chunk.cpp): inspects and pops the trailing marker byte of
the data vector.  An empty vector raises "Invalid chunk data detected"; a
marker that is neither `Sparse` nor `Contiguous` raises "Invalid chunk type
detected".  The result pairs the recognized type with the vector after
`pop_back()`. -/
def getChunkType (data : List Nat) : Except String (ChunkType × List Nat) :=
  match data.getLast? with
  | none => .error "Invalid chunk data detected"
  | some marker =>
      if marker = sparseMarker then .ok (.sparse, data.dropLast)
      else if marker = contiguousMarker then .ok (.contiguous, data.dropLast)
      else .error "Invalid chunk type detected"

/-- `SparseChunkData::popNumPoints` (chunk.cpp): reads the trailing 8 bytes as
a little-endian `uint64` and resizes them away; fewer than 8 bytes raise
"Invalid serialized sparse chunk".  Returns (numPoints, remaining bytes). -/
def popNumPoints (data : List Nat) : Except String (Nat × List Nat) :=
  if data.length < 8 then .error "Invalid serialized sparse chunk"
  else .ok (fromLE64 (data.drop (data.length - 8)), data.take (data.length - 8))

/-- The record-scanning loop shared by the `SparseChunkData` byte constructor
and the `SparseReader` constructor (chunk.cpp): starting at offset 0 and
stepping by `sparsePointSize = 8 + ps`, while the offset is below the buffer
size, read an 8-byte little-endian key followed by the `ps` bytes of the
native point record. -/
def parseCelled (ps : Nat) (bytes : List Nat) : List (Nat × List Nat) :=
  match bytes with
  | [] => []
  | b :: rest =>
      (fromLE64 (b :: rest), ((b :: rest).drop 8).take ps) ::
        parseCelled ps ((b :: rest).drop (8 + ps))
termination_by bytes.length
decreasing_by simp

/-- `std::map::emplace` on the in-order association list: inserts the pair at
its ordered position, keeping the existing mapping when the key is already
present. -/
def mapEmplace (m : List (Nat × List Nat)) (k : Nat) (v : List Nat) :
    List (Nat × List Nat) :=
  match m with
  | [] => [(k, v)]
  | (k', v') :: rest =>
      if k < k' then (k, v) :: (k', v') :: rest
      else if k = k' then (k', v') :: rest
      else (k', v') :: mapEmplace rest k v

/-- Builds a `std::map` (as its in-order association list) by `emplace`-ing
the pairs of a list in order, as the deserialization loops do. -/
def mapOfList (l : List (Nat × List Nat)) : List (Nat × List Nat) :=
  l.foldl (fun m p => mapEmplace m p.1 p.2) []

/-- The `SparseChunkData` byte constructor (chunk.cpp): pops the trailing
8-byte count, decompresses the rest against the celled schema with expected
size `numPoints * sparsePointSize`, and `emplace`s one entry per scanned
record (key from the first 8 bytes, point bytes following). -/
def sparseChunkDataOfBytes (schema : Schema) (id maxPoints : Nat)
    (compressedData : List Nat) : Except String SparseChunkData :=
  match popNumPoints compressedData with
  | .error e => .error e
  | .ok (numPoints, data) =>
      let sparse := makeSparse schema
      let squashed := Compression.decompress sparse (numPoints * sparse.pointSize) data
      .ok ⟨schema, id, maxPoints,
        mapOfList (parseCelled schema.pointSize squashed)⟩

/-- `ContiguousChunkData` (chunk.cpp): `m_data` is one contiguous buffer of
`maxPoints * pointSize` bytes.  (The per-slot `Entry` array built from it —
atomic `Point*` scanned from each slot's X/Y — carries no information beyond
`m_data` and is not needed by the claims.) -/
structure ContiguousChunkData where
  schema : Schema
  id : Nat
  maxPoints : Nat
  data : List Nat
deriving DecidableEq

/-- The `ContiguousChunkData` byte constructor (chunk.cpp): decompresses the
payload with expected size `maxPoints * pointSize`. -/
def contiguousChunkDataOfBytes (schema : Schema) (id maxPoints : Nat)
    (compressedData : List Nat) : ContiguousChunkData :=
  ⟨schema, id, maxPoints,
    Compression.decompress schema (maxPoints * schema.pointSize) compressedData⟩

/-- The `ChunkData` variant owned by a `Chunk`, a tagged sum of the two
layouts. -/
inductive ChunkData where
  | sparse (c : SparseChunkData)
  | contiguous (c : ContiguousChunkData)
deriving DecidableEq

/-- `ChunkDataFactory::create` (chunk.cpp): pops and inspects the trailing
marker byte via `getChunkType`, then dispatches the remaining bytes to the
`SparseChunkData` or `ContiguousChunkData` constructor. -/
def ChunkDataFactory.create (schema : Schema) (id maxPoints : Nat)
    (data : List Nat) : Except String ChunkData :=
  match getChunkType data with
  | .error e => .error e
  | .ok (.sparse, rest) =>
      (sparseChunkDataOfBytes schema id maxPoints rest).map ChunkData.sparse
  | .ok (.contiguous, rest) =>
      .ok (.contiguous (contiguousChunkDataOfBytes schema id maxPoints rest))

/-! ## Claim C3 -/

/-- C3.  `ChunkDataFactory::create`: an empty byte vector raises "invalid
chunk data"; otherwise the trailing byte is popped and inspected, `0x00`
dispatching the remaining bytes to the `SparseChunkData` constructor, `0x01`
to the `ContiguousChunkData` constructor, and any other trailing byte raising
"invalid chunk type". -/
theorem factory_marker_dispatch (schema : Schema) (id maxPoints : Nat)
    (data : List Nat) :
    (data = [] →
      ChunkDataFactory.create schema id maxPoints data
        = .error "Invalid chunk data detected") ∧
    (data.getLast? = some sparseMarker →
      ChunkDataFactory.create schema id maxPoints data
        = (sparseChunkDataOfBytes schema id maxPoints data.dropLast).map
            ChunkData.sparse) ∧
    (data.getLast? = some contiguousMarker →
      ChunkDataFactory.create schema id maxPoints data
        = .ok (.contiguous (contiguousChunkDataOfBytes schema id maxPoints
            data.dropLast))) ∧
    (∀ m, data.getLast? = some m → m ≠ sparseMarker → m ≠ contiguousMarker →
      ChunkDataFactory.create schema id maxPoints data
        = .error "Invalid chunk type detected") := by
  refine ⟨?_, ?_, ?_, ?_⟩
  · intro h
    subst h
    rfl
  · intro h
    simp [ChunkDataFactory.create, getChunkType, h]
  · intro h
    simp [ChunkDataFactory.create, getChunkType, h, contiguousMarker, sparseMarker]
  · intro m h hm0 hm1
    simp [ChunkDataFactory.create, getChunkType, h, hm0, hm1]

/-- C3 witness: the four dispatch branches at concrete inputs — the empty
vector, a blob ending in `0x00`, a blob ending in `0x01`, and a blob ending
in the unknown marker `0x7f`. -/
theorem factory_marker_dispatch_witness :
    (ChunkDataFactory.create c2Schema 0 4 []
      = .error "Invalid chunk data detected") ∧
    (ChunkDataFactory.create c2Schema 0 4 [9, 0]
      = (sparseChunkDataOfBytes c2Schema 0 4 [9]).map ChunkData.sparse) ∧
    (ChunkDataFactory.create c2Schema 0 4 [9, 1]
      = .ok (.contiguous (contiguousChunkDataOfBytes c2Schema 0 4 [9]))) ∧
    (ChunkDataFactory.create c2Schema 0 4 [9, 127]
      = .error "Invalid chunk type detected") :=
  ⟨(factory_marker_dispatch c2Schema 0 4 []).1 rfl,
   (factory_marker_dispatch c2Schema 0 4 [9, 0]).2.1 (by decide),
   (factory_marker_dispatch c2Schema 0 4 [9, 1]).2.2.1 (by decide),
   (factory_marker_dispatch c2Schema 0 4 [9, 127]).2.2.2 127 (by decide) (by decide)
     (by decide)⟩

/-! ## Claim C4: Sparse round-trip -/

theorem usub1_eq_sub_one (e : Nat) (h1 : 1 ≤ e) (h2 : e ≤ 2 ^ 64) :
    usub1 e = e - 1 := by
  unfold usub1
  omega

/-- Unfolding `parseCelled` on a nonempty buffer. -/
theorem parseCelled_cons (ps b : Nat) (rest : List Nat) :
    parseCelled ps (b :: rest)
      = (fromLE64 (b :: rest), ((b :: rest).drop 8).take ps) ::
          parseCelled ps ((b :: rest).drop (8 + ps)) := by
  rw [parseCelled]

/-- Scanning the concatenation of well-formed celled records recovers exactly
the original record list. -/
theorem parseCelled_flatten (ps : Nat) (l : List (Nat × List Nat))
    (hlen : ∀ p ∈ l, p.2.length = ps) (hkey : ∀ p ∈ l, p.1 < 2 ^ 64) :
    parseCelled ps ((l.map (fun p => toLE64 p.1 ++ p.2)).flatten) = l := by
  induction l with
  | nil =>
      simp only [List.map_nil, List.flatten_nil]
      rw [parseCelled]
  | cons q rest ih =>
      have hq2 : q.2.length = ps := hlen q (List.mem_cons_self q rest)
      have hq1 : q.1 < 2 ^ 64 := hkey q (List.mem_cons_self q rest)
      have hbuf :
          (((q :: rest).map (fun p => toLE64 p.1 ++ p.2)).flatten)
            = toLE64 q.1 ++ (q.2 ++ ((rest.map (fun p => toLE64 p.1 ++ p.2)).flatten)) := by
        simp [List.flatten_cons, List.append_assoc]
      have h8 : (toLE64 q.1).length = 8 := toLE64_length q.1
      obtain ⟨b, bs, hcons⟩ :
          ∃ b bs, toLE64 q.1 ++ (q.2 ++ ((rest.map (fun p => toLE64 p.1 ++ p.2)).flatten))
            = b :: bs := by
        cases hx : toLE64 q.1 with
        | nil => rw [hx] at h8; simp at h8
        | cons b bs =>
            exact ⟨b, bs ++ (q.2 ++ ((rest.map (fun p => toLE64 p.1 ++ p.2)).flatten)),
              rfl⟩
      rw [hbuf, hcons, parseCelled_cons, ← hcons]
      have htake : (toLE64 q.1 ++ (q.2 ++ ((rest.map (fun p => toLE64 p.1 ++ p.2)).flatten))).take 8
          = toLE64 q.1 := by
        rw [← h8, List.take_left]
      have hdrop8 : (toLE64 q.1 ++ (q.2 ++ ((rest.map (fun p => toLE64 p.1 ++ p.2)).flatten))).drop 8
          = q.2 ++ ((rest.map (fun p => toLE64 p.1 ++ p.2)).flatten) := by
        rw [← h8, List.drop_left]
      have hdropAll : (toLE64 q.1 ++ (q.2 ++ ((rest.map (fun p => toLE64 p.1 ++ p.2)).flatten))).drop (8 + ps)
          = (rest.map (fun p => toLE64 p.1 ++ p.2)).flatten := by
        rw [show 8 + ps = (toLE64 q.1).length + ps by rw [h8], List.drop_append,
          ← hq2, List.drop_left]
      rw [hdropAll, hdrop8]
      have hkeyeq : fromLE64 (toLE64 q.1 ++ (q.2 ++ ((rest.map (fun p => toLE64 p.1 ++ p.2)).flatten)))
          = q.1 := by
        unfold fromLE64
        rw [htake]
        have := fromLE64_toLE64 q.1 hq1
        unfold fromLE64 at this
        rwa [List.take_of_length_le (by rw [h8])] at this
      rw [hkeyeq]
      have htakeps : (q.2 ++ ((rest.map (fun p => toLE64 p.1 ++ p.2)).flatten)).take ps
          = q.2 := by
        rw [← hq2, List.take_left]
      rw [htakeps]
      rw [ih (fun p hp => hlen p (List.mem_cons_of_mem q hp))
          (fun p hp => hkey p (List.mem_cons_of_mem q hp))]

/-- `emplace` of a key greater than every key of the map appends at the
end. -/
theorem mapEmplace_append_last (m : List (Nat × List Nat)) (k : Nat)
    (v : List Nat) (h : ∀ p ∈ m, p.1 < k) :
    mapEmplace m k v = m ++ [(k, v)] := by
  induction m with
  | nil => rfl
  | cons q rest ih =>
      have hq : q.1 < k := h q (List.mem_cons_self q rest)
      unfold mapEmplace
      rw [if_neg (by omega), if_neg (by omega)]
      rw [ih (fun p hp => h p (List.mem_cons_of_mem q hp))]
      rfl

theorem foldl_mapEmplace (l acc : List (Nat × List Nat))
    (hal : ∀ p ∈ acc, ∀ q ∈ l, p.1 < q.1)
    (hl : l.Pairwise (fun p q => p.1 < q.1)) :
    l.foldl (fun m p => mapEmplace m p.1 p.2) acc = acc ++ l := by
  induction l generalizing acc with
  | nil => simp
  | cons q rest ih =>
      have hstep : mapEmplace acc q.1 q.2 = acc ++ [q] :=
        mapEmplace_append_last acc q.1 q.2
          (fun p hp => hal p hp q (List.mem_cons_self q rest))
      have hrest : ∀ p ∈ acc ++ [q], ∀ r ∈ rest, p.1 < r.1 := by
        intro p hp r hr
        rcases List.mem_append.mp hp with hpa | hpq
        · exact hal p hpa r (List.mem_cons_of_mem q hr)
        · have : p = q := by simpa using hpq
          subst this
          exact (List.pairwise_cons.mp hl).1 r hr
      calc (q :: rest).foldl (fun m p => mapEmplace m p.1 p.2) acc
          = rest.foldl (fun m p => mapEmplace m p.1 p.2) (mapEmplace acc q.1 q.2) := rfl
        _ = rest.foldl (fun m p => mapEmplace m p.1 p.2) (acc ++ [q]) := by rw [hstep]
        _ = (acc ++ [q]) ++ rest := ih (acc ++ [q]) hrest (List.pairwise_cons.mp hl).2
        _ = acc ++ q :: rest := by simp

/-- Rebuilding a map by in-order `emplace` of an already strictly-sorted
association list returns that list. -/
theorem mapOfList_sorted (l : List (Nat × List Nat))
    (h : l.Pairwise (fun p q => p.1 < q.1)) : mapOfList l = l := by
  have := foldl_mapEmplace l [] (by simp) h
  simpa [mapOfList] using this

/-- Creation from a blob whose trailing byte is the `Sparse` marker dispatches
the preceding bytes to the `SparseChunkData` constructor. -/
theorem create_sparse_of_marker (schema : Schema) (id maxPoints : Nat)
    (x : List Nat) :
    ChunkDataFactory.create schema id maxPoints (x ++ [sparseMarker])
      = (sparseChunkDataOfBytes schema id maxPoints x).map ChunkData.sparse := by
  simp [ChunkDataFactory.create, getChunkType]

/-- C4.  Round-trip, Sparse: writing a sparse chunk over its full range
`[m_id, m_id + m_maxPoints)` and reconstructing through
`ChunkDataFactory::create` from the stored bytes yields a `SparseChunkData`
with exactly the original populated index set and the original per-index
point bytes (the reconstructed chunk equals the original).  Hypotheses are
the `SparseChunkData` invariants: the map is strictly sorted by key, keys lie
in `[m_id, m_id + m_maxPoints)`, each entry's buffer has `pointSize` bytes,
and the `std::size_t` quantities fit 64 bits. -/
theorem sparse_roundtrip (c : SparseChunkData)
    (hsorted : c.entries.Pairwise (fun p q => p.1 < q.1))
    (hrange : ∀ p ∈ c.entries, c.id ≤ p.1 ∧ p.1 < c.id + c.maxPoints)
    (hlen : ∀ p ∈ c.entries, p.2.length = c.schema.pointSize)
    (hcount : c.entries.length < 2 ^ 64)
    (hend1 : 1 ≤ c.id + c.maxPoints) (hend2 : c.id + c.maxPoints ≤ 2 ^ 64) :
    ChunkDataFactory.create c.schema c.id c.maxPoints
        (c.write c.id (c.id + c.maxPoints)).2
      = .ok (.sparse c) := by
  have hkey : ∀ p ∈ c.entries, p.1 < 2 ^ 64 :=
    fun p hp => lt_of_lt_of_le (hrange p hp).2 hend2
  have hsq : c.squash c.id (c.id + c.maxPoints)
      = (c.entries.map (fun p => toLE64 p.1 ++ p.2)).flatten := by
    unfold SparseChunkData.squash
    rw [List.filter_eq_self.mpr]
    intro p hp
    rw [usub1_eq_sub_one _ hend1 hend2]
    have := hrange p hp
    simp only [Bool.and_eq_true, decide_eq_true_eq]
    omega
  have hblob : (c.write c.id (c.id + c.maxPoints)).2
      = (c.squash c.id (c.id + c.maxPoints) ++ toLE64 c.entries.length)
          ++ [sparseMarker] := by
    simp [SparseChunkData.write, SparseChunkData.pushNumPoints,
      Compression.compress, List.append_assoc]
  have hlen8 : (c.squash c.id (c.id + c.maxPoints) ++ toLE64 c.entries.length).length
      = (c.squash c.id (c.id + c.maxPoints)).length + 8 := by
    simp [toLE64_length]
  have hpop : popNumPoints
      (c.squash c.id (c.id + c.maxPoints) ++ toLE64 c.entries.length)
      = .ok (c.entries.length, c.squash c.id (c.id + c.maxPoints)) := by
    unfold popNumPoints
    rw [if_neg (by omega)]
    rw [hlen8]
    have hsub : (c.squash c.id (c.id + c.maxPoints)).length + 8 - 8
        = (c.squash c.id (c.id + c.maxPoints)).length := by omega
    rw [hsub, List.drop_left, List.take_left]
    have hfrom : fromLE64 (toLE64 c.entries.length) = c.entries.length :=
      fromLE64_toLE64 _ hcount
    rw [hfrom]
  have hfact : sparseChunkDataOfBytes c.schema c.id c.maxPoints
      (c.squash c.id (c.id + c.maxPoints) ++ toLE64 c.entries.length)
      = .ok c := by
    unfold sparseChunkDataOfBytes
    rw [hpop]
    simp only [Compression.decompress]
    rw [hsq, parseCelled_flatten _ _ hlen hkey, mapOfList_sorted _ hsorted]
  rw [hblob, create_sparse_of_marker, hfact]
  rfl

/-- The spec's scenario S3: a sparse chunk with raw indices 10, 42 and 1000
populated out of `maxPoints = 4096` (native point size 2). -/
def c4Example : SparseChunkData :=
  ⟨⟨[⟨"X", 1⟩, ⟨"Y", 1⟩]⟩, 0, 4096, [(10, [1, 2]), (42, [3, 4]), (1000, [5, 6])]⟩

/-- C4 witness: the round-trip theorem applied to scenario S3. -/
theorem sparse_roundtrip_witness :
    (c4Example.entries.Pairwise (fun p q => p.1 < q.1)) ∧
    ChunkDataFactory.create c4Example.schema c4Example.id c4Example.maxPoints
        (c4Example.write c4Example.id (c4Example.id + c4Example.maxPoints)).2
      = .ok (.sparse c4Example) :=
  ⟨by decide,
   sparse_roundtrip c4Example (by decide) (by decide) (by decide) (by decide)
     (by decide) (by decide)⟩

/-! ## Claim C9: SparseReader -/

/-- `SparseReader` (chunk.cpp): read-path sibling of `SparseChunkData`,
holding `m_data`, a `std::map` from raw index to the record's point bytes. -/
structure SparseReader where
  id : Nat
  schema : Schema
  data : List (Nat × List Nat)
deriving DecidableEq

/-- The `SparseReader` constructor (chunk.cpp, a direct copy of the
`SparseChunkData` byte constructor): pops the trailing 8-byte count,
decompresses against the celled schema, and `emplace`s one
(key, point-bytes) pair per scanned record. -/
def sparseReaderOfBytes (id : Nat) (schema : Schema) (bytes : List Nat) :
    Except String SparseReader :=
  match popNumPoints bytes with
  | .error e => .error e
  | .ok (numPoints, data) =>
      let sparse := makeSparse schema
      .ok ⟨id, schema,
        mapOfList (parseCelled schema.pointSize
          (Compression.decompress sparse (numPoints * sparse.pointSize) data))⟩

/-- `SparseReader::getData` (chunk.cpp): `m_data.find(rawIndex)`; a miss
returns the null pointer (modelled as `none`), a hit returns the pointer to
the record's bytes (modelled as `some` of them). -/
def SparseReader.getData (r : SparseReader) (rawIndex : Nat) : Option (List Nat) :=
  (r.data.find? (fun p => p.1 == rawIndex)).map Prod.snd

/-- C9.  For a `SparseReader` built by the constructor, `getData(rawIndex)`
returns the null pointer exactly when `rawIndex` is not among the indices
decoded at construction (the keys of `m_data`), and otherwise returns the
bytes of that decoded record; absence is signalled by null, not by an
error. -/
theorem sparseReader_getData_null_or_hit (id : Nat) (schema : Schema)
    (bytes : List Nat) (r : SparseReader)
    (_hr : sparseReaderOfBytes id schema bytes = .ok r) (i : Nat) :
    (r.getData i = none ↔ i ∉ r.data.map Prod.fst) ∧
    (i ∈ r.data.map Prod.fst → ∃ d, r.getData i = some d ∧ (i, d) ∈ r.data) := by
  constructor
  · constructor
    · intro h hmem
      rcases List.mem_map.mp hmem with ⟨p, hp, hfst⟩
      have hnone : r.data.find? (fun p => p.1 == i) = none := by
        cases hfind : r.data.find? (fun p => p.1 == i) with
        | none => rfl
        | some q => rw [SparseReader.getData, hfind] at h; simp at h
      have := List.find?_eq_none.mp hnone p hp
      simp [hfst] at this
    · intro h
      rw [SparseReader.getData]
      cases hfind : r.data.find? (fun p => p.1 == i) with
      | none => rfl
      | some q =>
          exfalso
          apply h
          have hq := List.find?_some hfind
          simp only [beq_iff_eq] at hq
          have hmem : q ∈ r.data := List.mem_of_find?_eq_some hfind
          exact List.mem_map.mpr ⟨q, hmem, hq⟩
  · intro hmem
    cases hfind : r.data.find? (fun p => p.1 == i) with
    | none =>
        exfalso
        rcases List.mem_map.mp hmem with ⟨p, hp, hfst⟩
        have := List.find?_eq_none.mp hfind p hp
        simp [hfst] at this
    | some q =>
        refine ⟨q.2, ?_, ?_⟩
        · rw [SparseReader.getData, hfind]
          rfl
        · have hq := List.find?_some hfind
          simp only [beq_iff_eq] at hq
          have hmem' : q ∈ r.data := List.mem_of_find?_eq_some hfind
          have heq : q = (i, q.2) := by
            cases q
            simp_all
          rwa [← heq]

/-- The decoded records of the concrete C9 payload: raw indices 3 and 7 with
one-byte points. -/
def c9Records : List (Nat × List Nat) := [(3, [1]), (7, [2])]

/-- Concrete serialized sparse payload (marker already popped): the celled
records for `c9Records` followed by the 8-byte count 2. -/
def c9Bytes : List Nat :=
  ((c9Records.map (fun p => toLE64 p.1 ++ p.2)).flatten) ++ toLE64 2

/-- The reader the constructor produces from `c9Bytes`. -/
def c9Reader : SparseReader := ⟨0, ⟨[⟨"Z", 1⟩]⟩, c9Records⟩

theorem c9Reader_ofBytes :
    sparseReaderOfBytes 0 ⟨[⟨"Z", 1⟩]⟩ c9Bytes = .ok c9Reader := by
  have h1 : popNumPoints c9Bytes
      = .ok (2, (c9Records.map (fun p => toLE64 p.1 ++ p.2)).flatten) := by decide
  unfold sparseReaderOfBytes
  rw [h1]
  simp only [Compression.decompress]
  have h2 : parseCelled (Schema.pointSize ⟨[⟨"Z", 1⟩]⟩)
      ((c9Records.map (fun p => toLE64 p.1 ++ p.2)).flatten) = c9Records :=
    parseCelled_flatten _ _ (by decide) (by decide)
  rw [h2]
  rfl

/-- C9 witness: on the reader decoded from `c9Bytes`, index 7 (decoded) hits
its record and index 5 (not decoded) yields null. -/
theorem sparseReader_getData_witness :
    (sparseReaderOfBytes 0 ⟨[⟨"Z", 1⟩]⟩ c9Bytes = .ok c9Reader) ∧
    (∃ d, c9Reader.getData 7 = some d ∧ (7, d) ∈ c9Reader.data) ∧
    c9Reader.getData 5 = none :=
  ⟨c9Reader_ofBytes,
   (sparseReader_getData_null_or_hit 0 ⟨[⟨"Z", 1⟩]⟩ c9Bytes c9Reader c9Reader_ofBytes 7).2
     (by decide),
   (sparseReader_getData_null_or_hit 0 ⟨[⟨"Z", 1⟩]⟩ c9Bytes c9Reader c9Reader_ofBytes 5).1.mpr
     (by decide)⟩

/-! ## Claim C7: ChunkData::finalize -/

/-- The slicing loop of `ChunkData::finalize` (chunk.cpp):
`for (id = i; id < endId; id += chunkPoints) write(source, id, id + chunkPoints)`,
modelled as the list of `(begin, end)` ranges passed to `write` in order.
For `step = 0` the C++ loop would not terminate when `i < endId`; the model
returns `[]` there and every theorem assumes `0 < step`. -/
def finalizeLoop (endId step i : Nat) : List (Nat × Nat) :=
  if h : 0 < step ∧ i < endId then (i, i + step) :: finalizeLoop endId step (i + step)
  else []
termination_by endId - i
decreasing_by omega

/-- `ChunkData::finalize` (chunk.cpp): when `start > m_id` it first writes the
prefix range `[m_id, start)` (recording `m_id` in `ids`), then runs the
slicing loop from `max(start, m_id)` to `endId() = m_id + m_maxPoints` in
steps of `chunkPoints`, recording each slice's begin id.  Modelled as the
ordered list of `(begin, end)` ranges written; the ids recorded are the
`begin` components, pushed immediately after each write. -/
def ChunkData.finalizeWrites (id maxPoints start chunkPoints : Nat) :
    List (Nat × Nat) :=
  (if start > id then [(id, start)] else []) ++
    finalizeLoop (id + maxPoints) chunkPoints (max start id)

def ChunkData.idOf : ChunkData → Nat
  | .sparse c => c.id
  | .contiguous c => c.id

def ChunkData.maxPointsOf : ChunkData → Nat
  | .sparse c => c.maxPoints
  | .contiguous c => c.maxPoints

/-- `Chunk::finalize` (chunk.cpp): delegates to `m_chunkData->finalize`,
i.e. to `ChunkData::finalize`, which is shared by both variants — the ranges
written do not depend on whether the chunk data is Sparse or Contiguous. -/
def Chunk.finalizeWrites (c : ChunkData) (start chunkPoints : Nat) :
    List (Nat × Nat) :=
  ChunkData.finalizeWrites c.idOf c.maxPointsOf start chunkPoints

/-- Closed form of the slicing loop: one slice `[i + k·step, i + k·step + step)`
per `k < ⌈(endId − i) / step⌉`. -/
theorem finalizeLoop_eq_range (endId step i : Nat) (h : 0 < step) :
    finalizeLoop endId step i
      = (List.range ((endId - i + step - 1) / step)).map
          (fun k => (i + k * step, i + k * step + step)) := by
  rw [finalizeLoop]
  by_cases hlt : i < endId
  · rw [dif_pos ⟨h, hlt⟩, finalizeLoop_eq_range endId step (i + step) h]
    have hn : (endId - i + step - 1) / step
        = (endId - (i + step) + step - 1) / step + 1 := by
      rcases le_or_lt step (endId - i) with hc | hc
      · have h1 : endId - (i + step) = endId - i - step := by omega
        rw [h1]
        have h2 : endId - i + step - 1 = (endId - i - step + step - 1) + step := by
          omega
        rw [h2, Nat.add_div_right _ h]
      · have h1 : endId - (i + step) = 0 := by omega
        rw [h1]
        have h2 : (0 + step - 1) / step = 0 := Nat.div_eq_of_lt (by omega)
        rw [h2]
        exact Nat.div_eq_of_lt_le (by omega) (by omega)
    rw [hn, List.range_succ_eq_map]
    simp only [List.map_cons, List.map_map]
    congr 1
    · simp
    · apply List.map_congr_left
      intro k _
      simp only [Function.comp_apply, Nat.succ_mul, Prod.mk.injEq]
      constructor
      · ring
      · ring
  · rw [dif_neg (fun hc => hlt hc.2)]
    have h0 : (endId - i + step - 1) / step = 0 := Nat.div_eq_of_lt (by omega)
    rw [h0]
    rfl
termination_by endId - i
decreasing_by omega

/-- C7, counterexample.  `ChunkData::finalize` is common to both chunk-data
variants: for the Sparse chunk with `m_id = 8`, `m_maxPoints = 4` finalized
with `start = 0`, `chunkPoints = 2`, the slicing loop writes two blobs
`[8,10)` and `[10,12)`, not one blob for the entire chunk `[8,12)`. -/
theorem finalize_sparse_counterexample :
    Chunk.finalizeWrites (.sparse ⟨⟨[⟨"X", 1⟩]⟩, 8, 4, []⟩) 0 2
        = [(8, 10), (10, 12)] ∧
    Chunk.finalizeWrites (.sparse ⟨⟨[⟨"X", 1⟩]⟩, 8, 4, []⟩) 0 2 ≠ [(8, 12)] := by
  have h : Chunk.finalizeWrites (.sparse ⟨⟨[⟨"X", 1⟩]⟩, 8, 4, []⟩) 0 2
      = [(8, 10), (10, 12)] := by
    unfold Chunk.finalizeWrites ChunkData.finalizeWrites
    rw [finalizeLoop_eq_range _ _ _ (by omega)]
    decide
  exact ⟨h, by rw [h]; decide⟩

/-- C7 (amended).  For every `finalize(source, ids, idsMutex, start,
chunkPoints)` call with `chunkPoints > 0`: if `start > m_id` a prefix blob
covering `[m_id, start)` is written first with `m_id` recorded in `ids`;
then — for Sparse and Contiguous chunks alike, `ChunkData::finalize` being
shared — one blob is written per `[id, id + chunkPoints)` slice for
`id = max(start, m_id), max(start, m_id) + chunkPoints, …` while
`id < m_id + m_maxPoints`, each begin id recorded in `ids`.  A Sparse chunk
receives a single blob covering the entire chunk precisely in the intended
cold-chunk case `start ≤ m_id` and `m_maxPoints ≤ chunkPoints` (with
`m_maxPoints > 0`). -/
theorem chunk_finalize_spec (c : ChunkData) (start chunkPoints : Nat)
    (h : 0 < chunkPoints) :
    (Chunk.finalizeWrites c start chunkPoints
      = (if start > c.idOf then [(c.idOf, start)] else [])
        ++ (List.range
              ((c.idOf + c.maxPointsOf - max start c.idOf + chunkPoints - 1)
                / chunkPoints)).map
            (fun k => (max start c.idOf + k * chunkPoints,
                       max start c.idOf + k * chunkPoints + chunkPoints))) ∧
    (start ≤ c.idOf → 0 < c.maxPointsOf → c.maxPointsOf ≤ chunkPoints →
      Chunk.finalizeWrites c start chunkPoints
        = [(c.idOf, c.idOf + chunkPoints)]) := by
  have hmain : Chunk.finalizeWrites c start chunkPoints
      = (if start > c.idOf then [(c.idOf, start)] else [])
        ++ (List.range
              ((c.idOf + c.maxPointsOf - max start c.idOf + chunkPoints - 1)
                / chunkPoints)).map
            (fun k => (max start c.idOf + k * chunkPoints,
                       max start c.idOf + k * chunkPoints + chunkPoints)) := by
    unfold Chunk.finalizeWrites ChunkData.finalizeWrites
    rw [finalizeLoop_eq_range _ _ _ h]
  refine ⟨hmain, ?_⟩
  intro hstart hmax hle
  rw [hmain]
  have hmaxeq : max start c.idOf = c.idOf := by omega
  rw [hmaxeq]
  have hdiv : (c.idOf + c.maxPointsOf - c.idOf + chunkPoints - 1) / chunkPoints
      = 1 := by
    apply Nat.div_eq_of_lt_le
    · omega
    · omega
  rw [hdiv, if_neg (by omega)]
  rw [show List.range 1 = [0] from rfl]
  simp

/-- C7 witness: the amended statement at the counterexample's Sparse chunk
(`m_id = 8`, `m_maxPoints = 4`, `start = 0`, `chunkPoints = 2`: two slices)
and at a cold-chunk call (`chunkPoints = m_maxPoints = 4`: one blob for the
entire chunk). -/
theorem chunk_finalize_spec_witness :
    (0 : Nat) < 2 ∧
    Chunk.finalizeWrites (.sparse ⟨⟨[⟨"X", 1⟩]⟩, 8, 4, []⟩) 0 2
      = [(8, 10), (10, 12)] ∧
    Chunk.finalizeWrites (.sparse ⟨⟨[⟨"X", 1⟩]⟩, 8, 4, []⟩) 0 4
      = [(8, 12)] := by
  refine ⟨by decide, ?_, ?_⟩
  · have h := (chunk_finalize_spec (.sparse ⟨⟨[⟨"X", 1⟩]⟩, 8, 4, []⟩) 0 2
      (by decide)).1
    rw [h]
    decide
  · exact (chunk_finalize_spec (.sparse ⟨⟨[⟨"X", 1⟩]⟩, 8, 4, []⟩) 0 4
      (by decide)).2 (by decide) (by decide) (by decide)

/-! ## Claim C5: ChunkReader::candidates

The read-path `ChunkReader` (chunk-reader.cpp): construction decodes the
unpacker envelope, materializes one `PointInfo` record per point — the point
coordinates read through the PDAL binary table, the raw-data pointer, and
`tick = Tube::calcTick(point, m_bounds, m_depth)` — and sorts the records
ascending by tick (`operator<` of `PointInfo` compares ticks; `std::sort` is
modelled by insertion sort, which produces a tick-sorted permutation).
Coordinates are rationals (exact values of the doubles involved); the raw
data pointer carries no information used by `candidates` and is elided. -/

structure PointQ where
  x : ℚ
  y : ℚ
  z : ℚ
deriving DecidableEq

structure BoundsQ where
  min : PointQ
  max : PointQ
deriving DecidableEq

structure PointRecord where
  point : PointQ
  tick : Int
deriving DecidableEq

instance : IsTotal PointRecord (fun a b => a.tick ≤ b.tick) :=
  ⟨fun a b => le_total a.tick b.tick⟩

instance : IsTrans PointRecord (fun a b => a.tick ≤ b.tick) :=
  ⟨fun _ _ _ => le_trans⟩

structure ChunkReader where
  id : Nat
  depth : Nat
  bounds : BoundsQ
  points : List PointRecord
deriving DecidableEq

/-- The `ChunkReader` constructor (chunk-reader.cpp).  `calcTick` stands for
`Tube::calcTick` (modelled from the spec: its implementation, in
`entwine/tree/cell.hpp`, is not among the sources; the spec fixes only that
the tick is a vertical discretization derived from (point, bounds, depth)),
so it is carried as an explicit function parameter, the theorems holding for
every such function. -/
def chunkReaderOfPoints (calcTick : PointQ → BoundsQ → Nat → Int)
    (id depth : Nat) (bounds : BoundsQ) (pts : List PointQ) : ChunkReader :=
  ⟨id, depth, bounds,
    (pts.map (fun p => ⟨p, calcTick p bounds depth⟩)).insertionSort
      (fun a b => a.tick ≤ b.tick)⟩

/-- `ChunkReader::candidates` (chunk-reader.cpp): computes the tick keys of
the query bounds' min and max corners and returns the
`[lower_bound(minTick), upper_bound(maxTick))` range of the tick-sorted
`m_points`.  On a sorted list, `std::lower_bound` is the first position with
`tick ≥ minTick` and `std::upper_bound` the first with `tick > maxTick`, so
the enclosed range is the sublist below. -/
def ChunkReader.candidates (cr : ChunkReader)
    (calcTick : PointQ → BoundsQ → Nat → Int) (qb : BoundsQ) :
    List PointRecord :=
  let tmin := calcTick qb.min cr.bounds cr.depth
  let tmax := calcTick qb.max cr.bounds cr.depth
  (cr.points.dropWhile (fun r => r.tick < tmin)).takeWhile (fun r => r.tick ≤ tmax)

/-- In a tick-sorted list, everything surviving `dropWhile (tick < t)` has
`tick ≥ t`. -/
theorem sorted_dropWhile_lt (t : Int) (l : List PointRecord)
    (h : l.Pairwise (fun a b => a.tick ≤ b.tick)) :
    ∀ r ∈ l.dropWhile (fun r => r.tick < t), t ≤ r.tick := by
  induction l with
  | nil => intro r hr; simp [List.dropWhile] at hr
  | cons a rest ih =>
      intro r hr
      rw [List.dropWhile_cons] at hr
      by_cases ha : a.tick < t
      · rw [if_pos (by simpa using ha)] at hr
        exact ih (List.pairwise_cons.mp h).2 r hr
      · rw [if_neg (by simpa using ha)] at hr
        rcases List.mem_cons.mp hr with hra | hrr
        · subst hra; omega
        · have := (List.pairwise_cons.mp h).1 r hrr
          omega

/-- In a tick-sorted list, everything surviving `dropWhile (tick ≤ t)` has
`tick > t`. -/
theorem sorted_dropWhile_le (t : Int) (l : List PointRecord)
    (h : l.Pairwise (fun a b => a.tick ≤ b.tick)) :
    ∀ r ∈ l.dropWhile (fun r => r.tick ≤ t), t < r.tick := by
  induction l with
  | nil => intro r hr; simp [List.dropWhile] at hr
  | cons a rest ih =>
      intro r hr
      rw [List.dropWhile_cons] at hr
      by_cases ha : a.tick ≤ t
      · rw [if_pos (by simpa using ha)] at hr
        exact ih (List.pairwise_cons.mp h).2 r hr
      · rw [if_neg (by simpa using ha)] at hr
        rcases List.mem_cons.mp hr with hra | hrr
        · subst hra; omega
        · have := (List.pairwise_cons.mp h).1 r hrr
          omega

/-- C5.  For every `ChunkReader` and query bounds `B`, `candidates(B)` is
sorted ascending by tick; every record in the returned range has its tick in
the closed interval `[calcTick(B.min, bounds, depth),
calcTick(B.max, bounds, depth)]`; and conversely every stored record
(`m_points` entry) whose tick lies in that interval is in the range.  Holds
for every tick function. -/
theorem candidates_sorted_bounded_complete
    (calcTick : PointQ → BoundsQ → Nat → Int) (id depth : Nat)
    (bounds : BoundsQ) (pts : List PointQ) (qb : BoundsQ) :
    ((chunkReaderOfPoints calcTick id depth bounds pts).candidates calcTick qb).Pairwise
        (fun a b => a.tick ≤ b.tick) ∧
    (∀ r ∈ (chunkReaderOfPoints calcTick id depth bounds pts).candidates calcTick qb,
      calcTick qb.min bounds depth ≤ r.tick ∧
        r.tick ≤ calcTick qb.max bounds depth) ∧
    (∀ r ∈ (chunkReaderOfPoints calcTick id depth bounds pts).points,
      calcTick qb.min bounds depth ≤ r.tick →
        r.tick ≤ calcTick qb.max bounds depth →
          r ∈ (chunkReaderOfPoints calcTick id depth bounds pts).candidates calcTick qb) := by
  set tmin := calcTick qb.min bounds depth with htmin
  set tmax := calcTick qb.max bounds depth with htmax
  set S := (chunkReaderOfPoints calcTick id depth bounds pts).points with hS
  have hsorted : S.Pairwise (fun a b => a.tick ≤ b.tick) :=
    List.sorted_insertionSort _ _
  have hcand : (chunkReaderOfPoints calcTick id depth bounds pts).candidates calcTick qb
      = (S.dropWhile (fun r => r.tick < tmin)).takeWhile (fun r => r.tick ≤ tmax) := rfl
  have hdropSorted : (S.dropWhile (fun r => r.tick < tmin)).Pairwise
      (fun a b => a.tick ≤ b.tick) :=
    hsorted.sublist (List.dropWhile_sublist _)
  refine ⟨?_, ?_, ?_⟩
  · rw [hcand]
    exact hdropSorted.sublist (List.takeWhile_sublist _)
  · intro r hr
    rw [hcand] at hr
    have hle : r.tick ≤ tmax := by
      have := List.mem_takeWhile_imp hr
      simpa using this
    have hmem : r ∈ S.dropWhile (fun r => r.tick < tmin) :=
      (List.takeWhile_sublist _).subset hr
    exact ⟨sorted_dropWhile_lt tmin S hsorted r hmem, hle⟩
  · intro r hrS hlo hhi
    rw [hcand]
    have hsplit1 : S.takeWhile (fun r => r.tick < tmin)
        ++ S.dropWhile (fun r => r.tick < tmin) = S :=
      List.takeWhile_append_dropWhile _ _
    have hr2 : r ∈ S.dropWhile (fun r => r.tick < tmin) := by
      have : r ∈ S.takeWhile (fun r => r.tick < tmin)
          ++ S.dropWhile (fun r => r.tick < tmin) := by rw [hsplit1]; exact hrS
      rcases List.mem_append.mp this with hta | htd
      · exfalso
        have := List.mem_takeWhile_imp hta
        simp at this
        omega
      · exact htd
    set L2 := S.dropWhile (fun r => r.tick < tmin) with hL2
    have hsplit2 : L2.takeWhile (fun r => r.tick ≤ tmax)
        ++ L2.dropWhile (fun r => r.tick ≤ tmax) = L2 :=
      List.takeWhile_append_dropWhile _ _
    have : r ∈ L2.takeWhile (fun r => r.tick ≤ tmax)
        ++ L2.dropWhile (fun r => r.tick ≤ tmax) := by rw [hsplit2]; exact hr2
    rcases List.mem_append.mp this with htk | htd
    · exact htk
    · exfalso
      have := sorted_dropWhile_le tmax L2 hdropSorted r htd
      omega

def c5CalcTick : PointQ → BoundsQ → Nat → Int := fun p _ _ => p.z.num

def c5Bounds : BoundsQ := ⟨⟨0, 0, 0⟩, ⟨10, 10, 10⟩⟩

def c5Query : BoundsQ := ⟨⟨0, 0, 1⟩, ⟨10, 10, 5⟩⟩

def c5Pts : List PointQ := [⟨0, 0, 5⟩, ⟨0, 0, 1⟩, ⟨0, 0, 9⟩]

def c5Reader : ChunkReader := chunkReaderOfPoints c5CalcTick 0 6 c5Bounds c5Pts

/-- C5 witness: with the tick function reading off the integer part of `z`,
the stored record at tick 5 lies in `[1, 5]` and the completeness direction
puts it in `candidates`. -/
theorem candidates_witness :
    ((⟨⟨0, 0, 5⟩, 5⟩ : PointRecord) ∈ c5Reader.points) ∧
    (c5CalcTick c5Query.min c5Bounds 6 ≤ (5 : Int)) ∧
    ((5 : Int) ≤ c5CalcTick c5Query.max c5Bounds 6) ∧
    (⟨⟨0, 0, 5⟩, 5⟩ : PointRecord) ∈ c5Reader.candidates c5CalcTick c5Query :=
  ⟨by decide, by decide, by decide,
   (candidates_sorted_bounded_complete c5CalcTick 0 6 c5Bounds c5Pts c5Query).2.2
     ⟨⟨0, 0, 5⟩, 5⟩ (by decide) (by decide) (by decide)⟩

/-! ## Claim C6: Query::processPoint -/

/-- Modelled from the spec: `BBox::contains` (the bounds type lives outside
these sources) — axis-aligned 3D containment. -/
def BoundsQ.contains (b : BoundsQ) (p : PointQ) : Bool :=
  b.min.x ≤ p.x && p.x ≤ b.max.x &&
  (b.min.y ≤ p.y && p.y ≤ b.max.y) &&
  (b.min.z ≤ p.z && p.z ≤ b.max.z)

/-- `std::memcpy(buffer + pos, bytes, bytes.length)`: overwrite in place (all
uses below are in bounds, where this is exactly the C++ semantics). -/
def writeAt (buf : List Nat) (pos : Nat) (bytes : List Nat) : List Nat :=
  buf.take pos ++ bytes ++ buf.drop (pos + bytes.length)

/-- One output field of `Query::processPoint` (query.cpp): under `normalize`,
an X/Y/Z dimension of byte size 4 is emitted as the 4 float bytes of the
coordinate recentered about `reader.bbox().mid()`; every other dimension is
emitted by `pointRef.getField(pos, id, type)`, which writes `dim.size()`
bytes of the record's value.  The two PDAL-side byte producers (`getFieldB`,
`f32enc`) are external codecs, carried as parameters with their length
contracts as hypotheses. -/
def emitDim (normalize : Bool) (mid pt : PointQ)
    (getFieldB : DimInfo → List Nat) (f32enc : ℚ → List Nat)
    (d : DimInfo) : List Nat :=
  if normalize && (d.name == "X" || d.name == "Y" || d.name == "Z")
      && (d.size == 4) then
    f32enc (if d.name == "X" then pt.x - mid.x
            else if d.name == "Y" then pt.y - mid.y
            else pt.z - mid.z)
  else getFieldB d

/-- The per-dimension write loop of `Query::processPoint`: writes each
dimension's bytes at `pos` and advances `pos` by `dim.size()`. -/
def processPointLoop (emit : DimInfo → List Nat) (dims : List DimInfo)
    (buf : List Nat) (pos : Nat) : List Nat :=
  match dims with
  | [] => buf
  | d :: rest => processPointLoop emit rest (writeAt buf pos (emit d)) (pos + d.size)

/-- `Query::processPoint` (query.cpp): if the query bounds contain the point,
the caller's buffer is grown by `outSchema.pointSize()` zero bytes
(`resize(size + pointSize, 0)`) and the output record is written into the new
slot dimension by dimension, returning `true`; otherwise nothing happens and
`false` is returned. -/
def Query.processPoint (qbox : BoundsQ) (outSchema : Schema) (normalize : Bool)
    (mid : PointQ) (getFieldB : DimInfo → List Nat) (f32enc : ℚ → List Nat)
    (buffer : List Nat) (pt : PointQ) : List Nat × Bool :=
  if qbox.contains pt then
    let buf1 := buffer ++ List.replicate outSchema.pointSize 0
    (processPointLoop (emitDim normalize mid pt getFieldB f32enc) outSchema.dims
      buf1 (buf1.length - outSchema.pointSize), true)
  else (buffer, false)

/-- The write loop over a zero padding of exactly the record's size turns the
padding into the concatenation of the per-dimension bytes. -/
theorem processPointLoop_append (emit : DimInfo → List Nat) (dims : List DimInfo)
    (buffer pad : List Nat)
    (hlen : ∀ d ∈ dims, (emit d).length = d.size)
    (hpad : pad.length = (dims.map DimInfo.size).sum) :
    processPointLoop emit dims (buffer ++ pad) buffer.length
      = buffer ++ (dims.map emit).flatten := by
  induction dims generalizing buffer pad with
  | nil =>
      simp only [List.map_nil, List.sum_nil] at hpad
      have : pad = [] := List.length_eq_zero.mp hpad
      subst this
      simp [processPointLoop]
  | cons d rest ih =>
      have hd : (emit d).length = d.size := hlen d (List.mem_cons_self d rest)
      have hwrite : writeAt (buffer ++ pad) buffer.length (emit d)
          = (buffer ++ emit d) ++ pad.drop d.size := by
        unfold writeAt
        rw [List.take_left, List.drop_append, hd]
      have hlen2 : buffer.length + d.size = (buffer ++ emit d).length := by
        simp [hd]
      have hpad2 : (pad.drop d.size).length = (rest.map DimInfo.size).sum := by
        simp only [List.map_cons, List.sum_cons] at hpad
        simp [hpad]
      calc processPointLoop emit (d :: rest) (buffer ++ pad) buffer.length
          = processPointLoop emit rest (writeAt (buffer ++ pad) buffer.length (emit d))
              (buffer.length + d.size) := rfl
        _ = processPointLoop emit rest ((buffer ++ emit d) ++ pad.drop d.size)
              (buffer ++ emit d).length := by rw [hwrite, hlen2]
        _ = (buffer ++ emit d) ++ (rest.map emit).flatten :=
              ih (buffer ++ emit d) (pad.drop d.size)
                (fun d' hd' => hlen d' (List.mem_cons_of_mem d hd')) hpad2
        _ = buffer ++ ((d :: rest).map emit).flatten := by
              simp [List.append_assoc]

/-- C6.  If the query bounds contain the point, `processPoint` appends exactly
one output record of `outSchema.pointSize()` bytes to the caller's buffer and
returns `true`; otherwise the buffer is unchanged and `false` is returned —
hence every point emitted by a query satisfies
`queryBounds.contains(point)`. -/
theorem processPoint_spec (qbox : BoundsQ) (outSchema : Schema)
    (normalize : Bool) (mid : PointQ) (getFieldB : DimInfo → List Nat)
    (f32enc : ℚ → List Nat) (buffer : List Nat) (pt : PointQ)
    (hg : ∀ d, (getFieldB d).length = d.size)
    (hf : ∀ q, (f32enc q).length = 4) :
    (qbox.contains pt = true →
      Query.processPoint qbox outSchema normalize mid getFieldB f32enc buffer pt
        = (buffer
            ++ (outSchema.dims.map (emitDim normalize mid pt getFieldB f32enc)).flatten,
           true)
      ∧ ((outSchema.dims.map (emitDim normalize mid pt getFieldB f32enc)).flatten).length
          = outSchema.pointSize) ∧
    (qbox.contains pt = false →
      Query.processPoint qbox outSchema normalize mid getFieldB f32enc buffer pt
        = (buffer, false)) := by
  have hemit : ∀ d, (emitDim normalize mid pt getFieldB f32enc d).length = d.size := by
    intro d
    unfold emitDim
    split
    · rename_i hcond
      simp only [Bool.and_eq_true, beq_iff_eq] at hcond
      rw [hf]
      omega
    · exact hg d
  have hflatlen :
      ((outSchema.dims.map (emitDim normalize mid pt getFieldB f32enc)).flatten).length
        = outSchema.pointSize := by
    rw [List.length_flatten, List.map_map]
    unfold Schema.pointSize
    congr 1
    apply List.map_congr_left
    intro d _
    exact hemit d
  constructor
  · intro hc
    constructor
    · unfold Query.processPoint
      rw [if_pos hc]
      dsimp only
      have hlenb : (buffer ++ List.replicate outSchema.pointSize 0).length
            - outSchema.pointSize = buffer.length := by
        simp
      rw [hlenb,
        processPointLoop_append _ _ _ _ (fun d _ => hemit d) (by simp [Schema.pointSize])]
    · exact hflatlen
  · intro hc
    unfold Query.processPoint
    rw [if_neg (by simp [hc])]

def c6Schema : Schema := ⟨[⟨"X", 4⟩, ⟨"I", 2⟩]⟩

def c6Box : BoundsQ := ⟨⟨0, 0, 0⟩, ⟨4, 4, 4⟩⟩

/-- C6 witness: with byte producers honoring their length contracts, a
contained point appends one 6-byte record and returns `true`, and a point
outside the bounds leaves the buffer untouched and returns `false`. -/
theorem processPoint_spec_witness :
    (Query.processPoint c6Box c6Schema true ⟨2, 2, 2⟩
        (fun d => List.replicate d.size 7) (fun _ => [1, 2, 3, 4]) [9] ⟨1, 1, 1⟩
      = ([9]
          ++ (c6Schema.dims.map (emitDim true ⟨2, 2, 2⟩ ⟨1, 1, 1⟩
                (fun d => List.replicate d.size 7) (fun _ => [1, 2, 3, 4]))).flatten,
         true)
      ∧ ((c6Schema.dims.map (emitDim true ⟨2, 2, 2⟩ ⟨1, 1, 1⟩
            (fun d => List.replicate d.size 7) (fun _ => [1, 2, 3, 4]))).flatten).length
          = c6Schema.pointSize) ∧
    Query.processPoint c6Box c6Schema true ⟨2, 2, 2⟩
        (fun d => List.replicate d.size 7) (fun _ => [1, 2, 3, 4]) [9] ⟨9, 1, 1⟩
      = ([9], false) :=
  ⟨(processPoint_spec c6Box c6Schema true ⟨2, 2, 2⟩
      (fun d => List.replicate d.size 7) (fun _ => [1, 2, 3, 4]) [9] ⟨1, 1, 1⟩
      (fun d => by simp) (fun q => by simp)).1 (by decide),
   (processPoint_spec c6Box c6Schema true ⟨2, 2, 2⟩
      (fun d => List.replicate d.size 7) (fun _ => [1, 2, 3, 4]) [9] ⟨9, 1, 1⟩
      (fun d => by simp) (fun q => by simp)).2 (by decide)⟩

/-! ## Claim C8: misuse guards of next -/

/-- The observable state of a `BaseQuery` (query.cpp): the `m_done` flag plus
the rest of the object (`m_base`, `m_chunks`, the active block, counters, the
attached reader and cache), abstracted as `inner` — the two misuse guards
under scrutiny read nothing but `m_done` and the caller's buffer. -/
structure BaseQueryState (σ : Type) where
  done : Bool
  inner : σ

/-- `BaseQuery::next` (query.cpp).  Its first statement is the completion
guard `if (m_done) throw std::runtime_error("Called next after query
completed")`; the body after the guard (base pass / chunked pass, driving
cache and reader) is abstracted as `step`, yielding the post-state, the
bytes appended to the caller's buffer, and the returned `!m_done`.  The
result pairs the post-state and appended bytes with the outcome; a thrown
exception leaves the object exactly as it was. -/
def BaseQuery.next {σ : Type}
    (step : BaseQueryState σ → BaseQueryState σ × List Nat × Bool)
    (st : BaseQueryState σ) :
    (BaseQueryState σ × List Nat) × Except String Bool :=
  if st.done then ((st, []), .error "Called next after query completed")
  else
    let (st', out, b) := step st
    ((st', out), .ok b)

/-- `Query::next(buffer)` (query.cpp): first checks
`if (buffer.size()) throw std::runtime_error("Query buffer not empty")`,
before `m_buffer` is set and before `BaseQuery::next` can process any point;
only then does it delegate.  The result carries the post-state and the
buffer's final contents. -/
def Query.next {σ : Type}
    (step : BaseQueryState σ → BaseQueryState σ × List Nat × Bool)
    (st : BaseQueryState σ) (buffer : List Nat) :
    (BaseQueryState σ × List Nat) × Except String Bool :=
  if buffer.length ≠ 0 then ((st, buffer), .error "Query buffer not empty")
  else
    let ((st', out), r) := BaseQuery.next step st
    ((st', buffer ++ out), r)

/-- C8.  Misuse is surfaced immediately: `BaseQuery::next` on a completed
query raises "Called next after query completed" leaving the state unchanged
(whatever the rest of the query body would do), and `Query::next(buffer)`
with a non-empty buffer raises "Query buffer not empty" before any point is
processed, leaving state and buffer unchanged; the completed-query error
likewise propagates through `Query::next` with the buffer untouched. -/
theorem next_misuse {σ : Type}
    (step : BaseQueryState σ → BaseQueryState σ × List Nat × Bool)
    (st : BaseQueryState σ) (buffer : List Nat) :
    (st.done = true →
      BaseQuery.next step st
        = ((st, []), .error "Called next after query completed")) ∧
    (buffer ≠ [] →
      Query.next step st buffer
        = ((st, buffer), .error "Query buffer not empty")) ∧
    (st.done = true → buffer = [] →
      Query.next step st buffer
        = ((st, buffer), .error "Called next after query completed")) := by
  refine ⟨?_, ?_, ?_⟩
  · intro h
    unfold BaseQuery.next
    rw [if_pos h]
  · intro h
    unfold Query.next
    rw [if_pos (by simpa [List.length_eq_zero] using h)]
  · intro hdone hbuf
    subst hbuf
    unfold Query.next BaseQuery.next
    rw [if_neg (by simp)]
    rw [if_pos hdone]
    rfl

/-- C8 witness: the three guards at a completed query state and the non-empty
buffer `[1]`. -/
theorem next_misuse_witness :
    (BaseQuery.next (fun s => (s, [], true)) (⟨true, ()⟩ : BaseQueryState Unit)
      = (((⟨true, ()⟩ : BaseQueryState Unit), []),
         .error "Called next after query completed")) ∧
    (Query.next (fun s => (s, [], true)) (⟨false, ()⟩ : BaseQueryState Unit) [1]
      = (((⟨false, ()⟩ : BaseQueryState Unit), [1]),
         .error "Query buffer not empty")) ∧
    (Query.next (fun s => (s, [], true)) (⟨true, ()⟩ : BaseQueryState Unit) []
      = (((⟨true, ()⟩ : BaseQueryState Unit), []),
         .error "Called next after query completed")) :=
  ⟨(next_misuse (fun s => (s, [], true)) (⟨true, ()⟩ : BaseQueryState Unit) []).1 rfl,
   (next_misuse (fun s => (s, [], true)) (⟨false, ()⟩ : BaseQueryState Unit) [1]).2.1
     (by simp),
   (next_misuse (fun s => (s, [], true)) (⟨true, ()⟩ : BaseQueryState Unit) []).2.2
     rfl rfl⟩

/-! ## Claim C10: empty tubes terminate base descent

`BaseQuery::getBase` (query.cpp) walks the base subtree with a
`SplitClimber`: at each visited node it looks up the node's `Tube`; a
nonempty tube has its primary cell and every secondary cell fed to
`processPoint` (which emits the point iff the query bounds contain it), and
the walk may descend to the node's children; an empty tube sets
`terminate = true`, and `splitter.next(true)` does not descend below the
node.  The base subtree is modelled as a rose tree: per node the tube's
points, a flag `descend` abstracting the climber's own pruning conditions
(bounds intersection and depth band — `SplitClimber` itself is outside these
sources), and the children.  `q` is the containment test
`m_qbox.contains(point)` applied by `processPoint`. -/

mutual
inductive BaseNode where
  | node (tube : List PointQ) (descend : Bool) (children : BaseForest)

inductive BaseForest where
  | nil
  | cons (t : BaseNode) (ts : BaseForest)
end

mutual
/-- The points emitted by the base pass from one subtree: an empty tube
emits nothing at the node and blocks the descent (`terminate = true`);
a nonempty tube emits its contained points and descends iff the climber
would. -/
def getBaseVisit (q : PointQ → Bool) : BaseNode → List PointQ
  | .node tube desc children =>
      if tube = [] then []
      else tube.filter q ++ (if desc then getBaseVisitForest q children else [])

def getBaseVisitForest (q : PointQ → Bool) : BaseForest → List PointQ
  | .nil => []
  | .cons t ts => getBaseVisit q t ++ getBaseVisitForest q ts
end

mutual
/-- `occursShielded p t`: within subtree `t`, every occurrence of `p` lies
strictly below a node whose tube is empty (and `p` is not stored at `t`'s own
tube). -/
def occursShielded (p : PointQ) : BaseNode → Bool
  | .node tube _ children =>
      !(tube.contains p) && (tube.isEmpty || occursShieldedForest p children)

def occursShieldedForest (p : PointQ) : BaseForest → Bool
  | .nil => true
  | .cons t ts => occursShielded p t && occursShieldedForest p ts
end

mutual
theorem shielded_not_visited_node (q : PointQ → Bool) (p : PointQ) :
    ∀ t : BaseNode, occursShielded p t = true → p ∉ getBaseVisit q t
  | .node tube desc children, h => by
      rw [getBaseVisit]
      unfold occursShielded at h
      simp only [Bool.and_eq_true, Bool.not_eq_true', Bool.or_eq_true] at h
      obtain ⟨hmem, hrest⟩ := h
      by_cases htube : tube = []
      · rw [if_pos htube]
        simp
      · rw [if_neg htube]
        intro hp
        rcases List.mem_append.mp hp with hpf | hps
        · have hpt : p ∈ tube := List.mem_of_mem_filter hpf
          have : tube.contains p = true := List.elem_eq_true_of_mem hpt
          rw [this] at hmem
          exact absurd hmem (by simp)
        · have hforest : occursShieldedForest p children = true := by
            rcases hrest with hemp | hfor
            · exfalso
              exact htube (List.isEmpty_iff.mp hemp)
            · exact hfor
          cases desc with
          | true =>
              rw [if_pos rfl] at hps
              exact shielded_not_visited_forest q p children hforest hps
          | false =>
              rw [if_neg (by simp)] at hps
              simp at hps

theorem shielded_not_visited_forest (q : PointQ → Bool) (p : PointQ) :
    ∀ ts : BaseForest, occursShieldedForest p ts = true →
      p ∉ getBaseVisitForest q ts
  | .nil, _ => by
      rw [getBaseVisitForest]
      simp
  | .cons t ts, h => by
      unfold occursShieldedForest at h
      simp only [Bool.and_eq_true] at h
      rw [getBaseVisitForest]
      intro hp
      rcases List.mem_append.mp hp with hpt | hpts
      · exact shielded_not_visited_node q p t h.1 hpt
      · exact shielded_not_visited_forest q p ts h.2 hpts
end

/-- C10.  During the base pass, a node with an empty `Tube` emits nothing
and its entire subtree is skipped (`getBaseVisit` of such a node is `[]`,
whatever the climber's own descent flags say); consequently a point stored
only in deeper base cells underneath empty ancestor tubes is never visited
or emitted — even when the containment test `q` accepts it, i.e. even when
it lies inside the query bounds and depth band. -/
theorem empty_tube_terminates_descent (q : PointQ → Bool) (p : PointQ)
    (desc : Bool) (children : BaseForest) (t : BaseNode)
    (h : occursShielded p t = true) :
    getBaseVisit q (.node [] desc children) = [] ∧ p ∉ getBaseVisit q t :=
  ⟨by rw [getBaseVisit]; simp, shielded_not_visited_node q p t h⟩

def c10Leaf : BaseNode := .node [⟨1, 1, 1⟩] true .nil

def c10Mid : BaseNode := .node [] true (.cons c10Leaf .nil)

def c10Root : BaseNode := .node [⟨0, 0, 0⟩] true (.cons c10Mid .nil)

/-- C10 witness: the point (1,1,1) stored in a grandchild cell below an
empty tube — with the containment test accepting everything, as for a query
over the whole space — is shielded and never emitted, and the empty-tube
node itself yields nothing. -/
theorem empty_tube_terminates_descent_witness :
    occursShielded ⟨1, 1, 1⟩ c10Root = true ∧
    (getBaseVisit (fun _ => true) (.node [] true (.cons c10Leaf .nil)) = [] ∧
      (⟨1, 1, 1⟩ : PointQ) ∉ getBaseVisit (fun _ => true) c10Root) :=
  ⟨by decide,
   empty_tube_terminates_descent (fun _ => true) ⟨1, 1, 1⟩ true
     (.cons c10Leaf .nil) c10Root (by decide)⟩

end Entwine
